import Mathlib

/-!
Verification of the PerturbViz gene-network annotation pipeline
(`perturbed-overlap-network.py`).

The embedding models:
* the undirected graph built by `nx.from_pandas_edgelist` (node and edge
  insertion order preserved, duplicate and reciprocal edges collapsed);
* Python dictionaries as association lists with first-match lookup and
  in-place update (`dictSet`), plus the last-write-wins semantics of
  `dict(zip(keys, values))` (`lastLookup`);
* `categorize_genes`, the fold-change map construction of
  `visualize_network`, the label-subset selection, the diverging colour
  domain, the per-category node painting, the layout dispatch with its
  fallback, and `create_gene_table`.

Fold-change values are rationals; a missing/NaN table entry is `none`.
Pandas sorts are modelled as stable sorts (insertion sort).
-/

/-- Gene categories assigned by `categorize_genes`. -/
inductive Category where
  | perturbed
  | up
  | down
  | other
deriving DecidableEq, Repr

/-- The category names used by the script, for lexical (string) ordering
in `create_gene_table`'s `sort_values('Category', ascending=True)`. -/
def catStr : Category → String
  | Category.perturbed => "perturbed"
  | Category.up => "up"
  | Category.down => "down"
  | Category.other => "other"

/-- An undirected `networkx` graph: nodes and edges in insertion order.
Edges are stored as ordered pairs but interpreted as unordered. -/
structure SGraph where
  nodes : List String
  edges : List (String × String)
deriving DecidableEq, Repr

/-- `G.add_node(x)`: appended only if not already present. -/
def addNode (g : SGraph) (x : String) : SGraph :=
  if x ∈ g.nodes then g else { g with nodes := g.nodes ++ [x] }

/-- Whether the undirected edge `{u, v}` is present. -/
def hasEdge (g : SGraph) (u v : String) : Prop :=
  (u, v) ∈ g.edges ∨ (v, u) ∈ g.edges

instance (g : SGraph) (u v : String) : Decidable (hasEdge g u v) := by
  unfold hasEdge; infer_instance

/-- `G.add_edge(u, v)`: endpoints become nodes; a duplicate or reciprocal
edge is not stored twice. -/
def addEdge (g : SGraph) (u v : String) : SGraph :=
  let g := addNode (addNode g u) v
  if hasEdge g u v then g else { g with edges := g.edges ++ [(u, v)] }

/-- `nx.from_pandas_edgelist(df, 'source', 'target')`: fold `add_edge`
over the rows of the edge list. -/
def from_pandas_edgelist (rows : List (String × String)) : SGraph :=
  rows.foldl (fun g e => addEdge g e.1 e.2) ⟨[], []⟩

/-- First-match association-list lookup: Python `d[k]` / `k in d`
(keys are unique in every dict the script builds). -/
def alookup (k : String) : List (String × β) → Option β
  | [] => none
  | p :: ps => if p.1 = k then some p.2 else alookup k ps

/-- Last-match lookup: the effective value of `dict(zip(genes, fcs))`
when a gene name occurs several times (last write wins). -/
def lastLookup (k : String) : List (String × β) → Option β
  | [] => none
  | p :: ps =>
    match lastLookup k ps with
    | some v => some v
    | none => if p.1 = k then some p.2 else none

/-- Python dict assignment `d[k] = v`: update in place when the key is
present, otherwise append. -/
def dictSet (d : List (String × β)) (k : String) (v : β) : List (String × β) :=
  if k ∈ d.map Prod.fst then d.map (fun p => if p.1 = k then (k, v) else p)
  else d ++ [(k, v)]

/-- One DEG table: the `(gene, log2FC)` rows, `none` a missing/NaN value.
`none` at the table level stands for "no DEG file or no log2FC column". -/
abbrev DegTable := List (String × Option ℚ)

/-- `categorize_genes(perturbed_genes, degs_df, G)`: default every node to
`other`; mark graph members of the perturbed list; then, when a DEG table
with fold changes exists, mark non-perturbed graph nodes with `fc > 1` as
`up` and `fc < -1` as `down`, skipping NaN. -/
def categorize_genes (perturbed_genes : List String) (degs_df : Option DegTable)
    (g : SGraph) : List (String × Category) :=
  let d0 := g.nodes.foldl (fun d node => dictSet d node Category.other) []
  let d1 := perturbed_genes.foldl
    (fun d gene => if gene ∈ g.nodes then dictSet d gene Category.perturbed else d) d0
  match degs_df with
  | none => d1
  | some tbl =>
    g.nodes.foldl (fun d gene =>
      if gene ∈ perturbed_genes then d
      else
        match lastLookup gene tbl with
        | none => d
        | some none => d
        | some (some fc) =>
          if fc > 1 then dictSet d gene Category.up
          else if fc < -1 then dictSet d gene Category.down
          else d) d1

/-- Per-node characterisation of the category the three passes of
`categorize_genes` leave behind (derived, proved equal below). -/
def categoryOf (perturbed_genes : List String) (degs_df : Option DegTable)
    (node : String) : Category :=
  if node ∈ perturbed_genes then Category.perturbed
  else
    match degs_df with
    | none => Category.other
    | some tbl =>
      match lastLookup node tbl with
      | none => Category.other
      | some none => Category.other
      | some (some fc) =>
        if fc > 1 then Category.up
        else if fc < -1 then Category.down
        else Category.other


/-! ### Association-list (Python dict) lemmas -/

theorem alookup_map_set (k : String) (v : β) :
    ∀ d : List (String × β), k ∈ d.map Prod.fst →
      alookup k (d.map (fun p => if p.1 = k then (k, v) else p)) = some v := by
  intro d
  induction d with
  | nil => intro h; simp at h
  | cons p ps ih =>
    intro h
    by_cases hp : p.1 = k
    · simp [alookup, hp]
    · simp only [List.map_cons, List.mem_cons] at h
      rcases h with h | h
      · exact absurd h.symm hp
      · simp [alookup, hp, ih h]

theorem alookup_map_set_ne (k k' : String) (v : β) (hne : k' ≠ k) :
    ∀ d : List (String × β),
      alookup k' (d.map (fun p => if p.1 = k then (k, v) else p)) = alookup k' d := by
  intro d
  induction d with
  | nil => rfl
  | cons p ps ih =>
    by_cases hp : p.1 = k
    · have hk : ¬(k = k') := fun he => hne he.symm
      have hp' : ¬(p.1 = k') := by rw [hp]; exact hk
      simp [alookup, hp, hk, hp', ih]
    · by_cases hq : p.1 = k'
      · simp [alookup, hp, hq, hne]
      · simp [alookup, hp, hq, ih]

theorem alookup_append_single (k : String) (v : β) :
    ∀ d : List (String × β), k ∉ d.map Prod.fst →
      alookup k (d ++ [(k, v)]) = some v := by
  intro d
  induction d with
  | nil => simp [alookup]
  | cons p ps ih =>
    intro h
    simp only [List.map_cons, List.mem_cons] at h
    push_neg at h
    have hp : ¬(p.1 = k) := fun he => h.1 he.symm
    simp [alookup, hp, ih h.2]

theorem alookup_append_single_ne (k k' : String) (v : β) (hne : k' ≠ k) :
    ∀ d : List (String × β), alookup k' (d ++ [(k, v)]) = alookup k' d := by
  intro d
  induction d with
  | nil =>
    have hk : ¬(k = k') := fun he => hne he.symm
    simp [alookup, hk]
  | cons p ps ih =>
    by_cases hp : p.1 = k'
    · simp [alookup, hp]
    · simp [alookup, hp, ih]

theorem alookup_dictSet (d : List (String × β)) (k k' : String) (v : β) :
    alookup k' (dictSet d k v) = if k' = k then some v else alookup k' d := by
  unfold dictSet
  by_cases hk : k' = k
  · rw [if_pos hk, hk]
    by_cases hmem : k ∈ d.map Prod.fst
    · rw [if_pos hmem, alookup_map_set k v d hmem]
    · rw [if_neg hmem, alookup_append_single k v d hmem]
  · rw [if_neg hk]
    by_cases hmem : k ∈ d.map Prod.fst
    · rw [if_pos hmem, alookup_map_set_ne k k' v hk d]
    · rw [if_neg hmem, alookup_append_single_ne k k' v hk d]

theorem keys_map_set (k : String) (v : β) :
    ∀ d : List (String × β),
      (d.map (fun p => if p.1 = k then (k, v) else p)).map Prod.fst = d.map Prod.fst := by
  intro d
  induction d with
  | nil => rfl
  | cons p ps ih =>
    by_cases hp : p.1 = k
    · simp [hp, ih]
    · simp [hp, ih]

theorem keys_dictSet (d : List (String × β)) (k : String) (v : β) :
    (dictSet d k v).map Prod.fst =
      if k ∈ d.map Prod.fst then d.map Prod.fst else d.map Prod.fst ++ [k] := by
  unfold dictSet
  by_cases hmem : k ∈ d.map Prod.fst
  · rw [if_pos hmem, if_pos hmem, keys_map_set]
  · rw [if_neg hmem, if_neg hmem]
    simp

theorem mem_keys_iff_alookup (n : String) :
    ∀ d : List (String × β), n ∈ d.map Prod.fst ↔ (alookup n d).isSome := by
  intro d
  induction d with
  | nil => simp [alookup]
  | cons p ps ih =>
    by_cases hp : p.1 = n
    · simp [alookup, hp]
    · have hn : ¬(n = p.1) := fun he => hp he.symm
      simp [alookup, hp, hn, ih]

theorem alookup_of_mem_of_nodup (d : List (String × β)) (n : String) (c : β)
    (hnd : (d.map Prod.fst).Nodup) (hm : (n, c) ∈ d) : alookup n d = some c := by
  induction d with
  | nil => simp at hm
  | cons p ps ih =>
    simp only [List.map_cons, List.nodup_cons] at hnd
    rcases List.mem_cons.mp hm with h | h
    · rw [← h]; simp [alookup]
    · have hp : ¬(p.1 = n) := by
        intro he
        exact hnd.1 (he ▸ (List.mem_map_of_mem Prod.fst h))
      simp [alookup, hp, ih hnd.2 h]

/-! ### The three passes of `categorize_genes` -/

theorem alookup_fold_init (n : String) :
    ∀ (nodes : List String) (d : List (String × Category)),
      alookup n (nodes.foldl (fun d node => dictSet d node Category.other) d) =
        if n ∈ nodes then some Category.other else alookup n d := by
  intro nodes
  induction nodes with
  | nil => intro d; simp
  | cons m ms ih =>
    intro d
    simp only [List.foldl_cons]
    rw [ih]
    by_cases hms : n ∈ ms
    · simp [hms]
    · by_cases hnm : n = m
      · simp [hms, hnm, alookup_dictSet]
      · simp [hms, hnm, alookup_dictSet]

theorem alookup_fold_perturbed (g : SGraph) (n : String) :
    ∀ (pl : List String) (d : List (String × Category)),
      alookup n (pl.foldl
          (fun d gene => if gene ∈ g.nodes then dictSet d gene Category.perturbed else d) d) =
        if n ∈ pl ∧ n ∈ g.nodes then some Category.perturbed else alookup n d := by
  intro pl
  induction pl with
  | nil => intro d; simp
  | cons m ms ih =>
    intro d
    simp only [List.foldl_cons]
    rw [ih]
    by_cases hms : n ∈ ms ∧ n ∈ g.nodes
    · simp [hms, List.mem_cons, hms.1, hms.2]
    · by_cases hnm : n = m
      · subst hnm
        by_cases hg : n ∈ g.nodes
        · simp [hms, hg, alookup_dictSet]
        · simp [hms, hg]
      · by_cases hg : m ∈ g.nodes
        · simp only [if_pos hg, alookup_dictSet, if_neg hnm]
          by_cases h2 : n ∈ m :: ms ∧ n ∈ g.nodes
          · rcases List.mem_cons.mp h2.1 with h | h
            · exact absurd h hnm
            · exact absurd ⟨h, h2.2⟩ hms
          · have h3 : ¬((n = m ∨ n ∈ ms) ∧ n ∈ g.nodes) := by
              intro hc
              exact h2 ⟨List.mem_cons.mpr hc.1, hc.2⟩
            simp [hms, h3]
        · have h3 : ¬((n = m ∨ n ∈ ms) ∧ n ∈ g.nodes) := by
            intro hc
            rcases hc.1 with h | h
            · exact hnm h
            · exact hms ⟨h, hc.2⟩
          simp [hg, hms, h3]

/-- The update, if any, the DEG pass applies to one gene. -/
def degStep (perturbed_genes : List String) (tbl : DegTable) (gene : String) :
    Option Category :=
  if gene ∈ perturbed_genes then none
  else
    match lastLookup gene tbl with
    | none => none
    | some none => none
    | some (some fc) =>
      if fc > 1 then some Category.up
      else if fc < -1 then some Category.down
      else none

theorem degFoldStep_eq (pl : List String) (tbl : DegTable)
    (d : List (String × Category)) (gene : String) :
    (if gene ∈ pl then d
     else
       match lastLookup gene tbl with
       | none => d
       | some none => d
       | some (some fc) =>
         if fc > 1 then dictSet d gene Category.up
         else if fc < -1 then dictSet d gene Category.down
         else d) =
      match degStep pl tbl gene with
      | some c => dictSet d gene c
      | none => d := by
  unfold degStep
  by_cases hp : gene ∈ pl
  · simp [hp]
  · simp only [if_neg hp]
    rcases h : lastLookup gene tbl with _ | fcOpt
    · rfl
    · rcases fcOpt with _ | fc
      · rfl
      · by_cases h1 : fc > 1
        · simp [h1]
        · by_cases h2 : fc < -1
          · simp [h1, h2]
          · simp [h1, h2]

theorem alookup_fold_deg (pl : List String) (tbl : DegTable) (n : String) :
    ∀ (nodes : List String) (d : List (String × Category)),
      alookup n (nodes.foldl
          (fun d gene =>
            if gene ∈ pl then d
            else
              match lastLookup gene tbl with
              | none => d
              | some none => d
              | some (some fc) =>
                if fc > 1 then dictSet d gene Category.up
                else if fc < -1 then dictSet d gene Category.down
                else d) d) =
        if n ∈ nodes then
          match degStep pl tbl n with
          | some c => some c
          | none => alookup n d
        else alookup n d := by
  intro nodes
  induction nodes with
  | nil => intro d; simp
  | cons m ms ih =>
    intro d
    simp only [List.foldl_cons]
    rw [ih, degFoldStep_eq pl tbl d m]
    by_cases hnm : n = m
    · subst hnm
      rcases hs : degStep pl tbl n with _ | c
      · by_cases hms : n ∈ ms
        · simp [hms, hs]
        · simp [hms, hs]
      · by_cases hms : n ∈ ms
        · simp [hms, hs, alookup_dictSet]
        · simp [hms, hs, alookup_dictSet]
    · by_cases hms : n ∈ ms
      · rcases hs : degStep pl tbl n with _ | c
        · rcases hm : degStep pl tbl m with _ | c2
          · simp [hms, hs, hm]
          · simp [hms, hs, hm, alookup_dictSet, hnm]
        · simp [hms, hs]
      · have hcons : ¬(n ∈ m :: ms) := by
          intro h; rcases List.mem_cons.mp h with h | h
          · exact hnm h
          · exact hms h
        rcases hs : degStep pl tbl m with _ | c
        · simp [hms, hcons]
        · simp [hms, hcons, alookup_dictSet, hnm]

/-- Per-node value of the category dict built by `categorize_genes`:
exactly `categoryOf` on graph nodes, absent elsewhere. -/
theorem lookup_categorize_genes (pl : List String) (dd : Option DegTable)
    (g : SGraph) (n : String) :
    alookup n (categorize_genes pl dd g) =
      if n ∈ g.nodes then some (categoryOf pl dd n) else none := by
  unfold categorize_genes categoryOf
  rcases dd with _ | tbl
  · rw [alookup_fold_perturbed, alookup_fold_init]
    by_cases hg : n ∈ g.nodes
    · by_cases hp : n ∈ pl
      · simp [hg, hp]
      · simp [hg, hp, alookup]
    · by_cases hp : n ∈ pl
      · simp [hg, hp, alookup]
      · simp [hg, hp, alookup]
  · rw [alookup_fold_deg, alookup_fold_perturbed, alookup_fold_init]
    unfold degStep
    by_cases hg : n ∈ g.nodes
    · by_cases hp : n ∈ pl
      · simp [hg, hp]
      · simp only [if_pos hg, if_neg hp, hp, false_and, if_false]
        rcases h : lastLookup n tbl with _ | fcOpt
        · simp [hg]
        · rcases fcOpt with _ | fc
          · simp [hg]
          · by_cases h1 : fc > 1
            · simp [h1]
            · by_cases h2 : fc < -1
              · simp [h1, h2]
              · simp [h1, h2, hg]
    · simp [hg, alookup]

/-! ### Keys of the category dict -/

theorem keys_dictSet_nodup (d : List (String × β)) (k : String) (v : β)
    (h : (d.map Prod.fst).Nodup) : ((dictSet d k v).map Prod.fst).Nodup := by
  rw [keys_dictSet]
  by_cases hm : k ∈ d.map Prod.fst
  · simpa [hm] using h
  · rw [if_neg hm]
    refine List.Nodup.append h (List.nodup_singleton k) ?_
    intro x hx hxk
    simp only [List.mem_singleton] at hxk
    exact hm (hxk ▸ hx)

theorem nodup_keys_foldl {γ : Type _} (f : List (String × β) → γ → List (String × β))
    (hf : ∀ d x, (d.map Prod.fst).Nodup → ((f d x).map Prod.fst).Nodup) :
    ∀ (l : List γ) (d : List (String × β)),
      (d.map Prod.fst).Nodup → ((l.foldl f d).map Prod.fst).Nodup := by
  intro l
  induction l with
  | nil => intro d h; exact h
  | cons x xs ih => intro d h; exact ih (f d x) (hf d x h)

theorem nodup_keys_categorize (pl : List String) (dd : Option DegTable) (g : SGraph) :
    ((categorize_genes pl dd g).map Prod.fst).Nodup := by
  have h0 : ((g.nodes.foldl (fun d node => dictSet d node Category.other) []).map
      Prod.fst).Nodup := by
    apply nodup_keys_foldl
    · intro d x hd; exact keys_dictSet_nodup d x Category.other hd
    · simp
  have h1 : ((pl.foldl
      (fun d gene => if gene ∈ g.nodes then dictSet d gene Category.perturbed else d)
      (g.nodes.foldl (fun d node => dictSet d node Category.other) [])).map
      Prod.fst).Nodup := by
    apply nodup_keys_foldl
    · intro d x hd
      by_cases hx : x ∈ g.nodes
      · simpa [hx] using keys_dictSet_nodup d x Category.perturbed hd
      · simpa [hx] using hd
    · exact h0
  unfold categorize_genes
  rcases dd with _ | tbl
  · exact h1
  · apply nodup_keys_foldl
    · intro d x hd
      by_cases hx : x ∈ pl
      · simpa [hx] using hd
      · rcases h : lastLookup x tbl with _ | fcOpt
        · simpa [hx, h] using hd
        · rcases fcOpt with _ | fc
          · simpa [hx, h] using hd
          · by_cases h1' : fc > 1
            · simpa [hx, h, h1'] using keys_dictSet_nodup d x Category.up hd
            · by_cases h2' : fc < -1
              · simpa [hx, h, h1', h2'] using keys_dictSet_nodup d x Category.down hd
              · simpa [hx, h, h1', h2'] using hd
    · exact h1

/-! ### Claims about the Category Classifier -/

/-- C2. Precedence invariant: every graph node that belongs to the
perturbed list is assigned category `perturbed`, whatever fold change
(of any magnitude, `|log2FC| > 1` included) the DEG table records for it. -/
theorem perturbed_precedence (pl : List String) (dd : Option DegTable) (g : SGraph)
    (n : String) (hn : n ∈ g.nodes) (hp : n ∈ pl) :
    alookup n (categorize_genes pl dd g) = some Category.perturbed := by
  rw [lookup_categorize_genes]
  simp [hn, categoryOf, hp]

/-- Witness for C2 at a concrete input where the perturbed gene also has
`log2FC = 5`, so `|log2FC| > 1`. -/
theorem perturbed_precedence_witness :
    "A" ∈ (SGraph.mk ["A", "B"] [("A", "B")]).nodes ∧ "A" ∈ ["A"] ∧
      alookup "A" (categorize_genes ["A"] (some [("A", some 5)])
        (SGraph.mk ["A", "B"] [("A", "B")])) = some Category.perturbed :=
  ⟨by decide, by decide,
    perturbed_precedence ["A"] (some [("A", some 5)]) (SGraph.mk ["A", "B"] [("A", "B")])
      "A" (by decide) (by decide)⟩

theorem categoryOf_of_lastLookup_none (pl : List String) (tbl : DegTable) (n : String)
    (hp : n ∉ pl) (h : lastLookup n tbl = none) :
    categoryOf pl (some tbl) n = Category.other := by
  unfold categoryOf
  simp [hp, h]

theorem categoryOf_of_lastLookup_nan (pl : List String) (tbl : DegTable) (n : String)
    (hp : n ∉ pl) (h : lastLookup n tbl = some none) :
    categoryOf pl (some tbl) n = Category.other := by
  unfold categoryOf
  simp [hp, h]

theorem categoryOf_of_lastLookup_fc (pl : List String) (tbl : DegTable) (n : String)
    (fc : ℚ) (hp : n ∉ pl) (h : lastLookup n tbl = some (some fc)) :
    categoryOf pl (some tbl) n =
      if fc > 1 then Category.up
      else if fc < -1 then Category.down
      else Category.other := by
  unfold categoryOf
  simp [hp, h]

/-- C4. Strict inequality boundary: a non-perturbed graph node whose
effective fold change is exactly `1` or exactly `-1` is categorised
`other`; `up` holds exactly when the fold change is strictly greater
than `1`, and `down` exactly when it is strictly less than `-1`. -/
theorem strict_boundary (pl : List String) (tbl : DegTable) (g : SGraph) (n : String)
    (hn : n ∈ g.nodes) (hp : n ∉ pl) :
    ((lastLookup n tbl = some (some 1) ∨ lastLookup n tbl = some (some (-1))) →
        alookup n (categorize_genes pl (some tbl) g) = some Category.other)
    ∧ (alookup n (categorize_genes pl (some tbl) g) = some Category.up ↔
        ∃ fc, lastLookup n tbl = some (some fc) ∧ fc > 1)
    ∧ (alookup n (categorize_genes pl (some tbl) g) = some Category.down ↔
        ∃ fc, lastLookup n tbl = some (some fc) ∧ fc < -1) := by
  rw [lookup_categorize_genes]
  simp only [if_pos hn]
  rcases h : lastLookup n tbl with _ | fcOpt
  · rw [categoryOf_of_lastLookup_none pl tbl n hp h]
    refine ⟨fun hd => rfl, ?_, ?_⟩ <;> simp
  · rcases fcOpt with _ | fc
    · rw [categoryOf_of_lastLookup_nan pl tbl n hp h]
      refine ⟨fun hd => rfl, ?_, ?_⟩ <;> simp
    · rw [categoryOf_of_lastLookup_fc pl tbl n fc hp h]
      refine ⟨?_, ?_, ?_⟩
      · intro hd
        rcases hd with hd | hd
        · injection hd with hd2
          injection hd2 with hd3
          rw [hd3]; norm_num
        · injection hd with hd2
          injection hd2 with hd3
          rw [hd3]; norm_num
      · by_cases h1 : fc > 1
        · simp only [if_pos h1]
          constructor
          · intro _; exact ⟨fc, rfl, h1⟩
          · intro _; trivial
        · by_cases h2 : fc < -1
          · simp only [if_neg h1, if_pos h2]
            constructor
            · intro hcd; exact absurd hcd (by decide)
            · rintro ⟨fc', hfc', hgt⟩
              injection hfc' with hfc2; injection hfc2 with hfc3
              rw [← hfc3] at hgt
              exact absurd hgt h1
          · simp only [if_neg h1, if_neg h2]
            constructor
            · intro hcd; exact absurd hcd (by decide)
            · rintro ⟨fc', hfc', hgt⟩
              injection hfc' with hfc2; injection hfc2 with hfc3
              rw [← hfc3] at hgt
              exact absurd hgt h1
      · by_cases h1 : fc > 1
        · simp only [if_pos h1]
          constructor
          · intro hcd; exact absurd hcd (by decide)
          · rintro ⟨fc', hfc', hlt⟩
            injection hfc' with hfc2; injection hfc2 with hfc3
            rw [← hfc3] at hlt
            exact absurd h1 (by linarith)
        · by_cases h2 : fc < -1
          · simp only [if_neg h1, if_pos h2]
            constructor
            · intro _; exact ⟨fc, rfl, h2⟩
            · intro _; trivial
          · simp only [if_neg h1, if_neg h2]
            constructor
            · intro hcd; exact absurd hcd (by decide)
            · rintro ⟨fc', hfc', hlt⟩
              injection hfc' with hfc2; injection hfc2 with hfc3
              rw [← hfc3] at hlt
              exact absurd hlt h2

/-- Witness for C4: with the boundary value `log2FC = 1` the node is
categorised `other`. -/
theorem strict_boundary_witness :
    "A" ∈ (SGraph.mk ["A", "B"] [("A", "B")]).nodes ∧ "A" ∉ ([] : List String) ∧
      alookup "A" (categorize_genes [] (some [("A", some 1)])
        (SGraph.mk ["A", "B"] [("A", "B")])) = some Category.other :=
  ⟨by decide, by decide,
    (strict_boundary [] [("A", some 1)] (SGraph.mk ["A", "B"] [("A", "B")]) "A"
      (by decide) (by decide)).1 (Or.inl (by decide))⟩

/-- C5. Totality: the category dict has pairwise-distinct keys, its key
set is exactly the graph's node set, and each node is mapped to exactly
one category. -/
theorem category_map_total (pl : List String) (dd : Option DegTable) (g : SGraph) :
    ((categorize_genes pl dd g).map Prod.fst).Nodup
    ∧ (∀ n, n ∈ (categorize_genes pl dd g).map Prod.fst ↔ n ∈ g.nodes)
    ∧ (∀ n c₁ c₂, (n, c₁) ∈ categorize_genes pl dd g →
        (n, c₂) ∈ categorize_genes pl dd g → c₁ = c₂) := by
  refine ⟨nodup_keys_categorize pl dd g, ?_, ?_⟩
  · intro n
    rw [mem_keys_iff_alookup, lookup_categorize_genes]
    by_cases hg : n ∈ g.nodes <;> simp [hg]
  · intro n c₁ c₂ h1 h2
    have e1 := alookup_of_mem_of_nodup _ n c₁ (nodup_keys_categorize pl dd g) h1
    have e2 := alookup_of_mem_of_nodup _ n c₂ (nodup_keys_categorize pl dd g) h2
    rw [e1] at e2
    exact Option.some.inj e2

/-- Witness for C5 at a concrete graph, perturbed list and DEG table. -/
theorem category_map_total_witness :
    ((categorize_genes ["A"] (some [("B", some 2), ("C", none)])
        (SGraph.mk ["A", "B", "C"] [("A", "B"), ("B", "C")])).map Prod.fst).Nodup
    ∧ (∀ n, n ∈ (categorize_genes ["A"] (some [("B", some 2), ("C", none)])
        (SGraph.mk ["A", "B", "C"] [("A", "B"), ("B", "C")])).map Prod.fst ↔
        n ∈ (SGraph.mk ["A", "B", "C"] [("A", "B"), ("B", "C")]).nodes)
    ∧ (∀ n c₁ c₂,
        (n, c₁) ∈ categorize_genes ["A"] (some [("B", some 2), ("C", none)])
          (SGraph.mk ["A", "B", "C"] [("A", "B"), ("B", "C")]) →
        (n, c₂) ∈ categorize_genes ["A"] (some [("B", some 2), ("C", none)])
          (SGraph.mk ["A", "B", "C"] [("A", "B"), ("B", "C")]) → c₁ = c₂) :=
  category_map_total ["A"] (some [("B", some 2), ("C", none)])
    (SGraph.mk ["A", "B", "C"] [("A", "B"), ("B", "C")])

/-! ### The fold-change map of `visualize_network` -/

/-- The fold-change map built in `visualize_network`: for each graph node
found in `fc_dict = dict(zip(degs_df['gene'], degs_df['log2FC']))` with a
non-NaN value, record it. -/
def build_fold_changes (g : SGraph) (degs_df : Option DegTable) : List (String × ℚ) :=
  match degs_df with
  | none => []
  | some tbl =>
    g.nodes.foldl (fun d node =>
      match lastLookup node tbl with
      | none => d
      | some none => d
      | some (some v) => dictSet d node v) []

/-- The update, if any, one node contributes to the fold-change map. -/
def fcStep (tbl : DegTable) (node : String) : Option ℚ :=
  match lastLookup node tbl with
  | none => none
  | some none => none
  | some (some v) => some v

theorem fcFoldStep_eq (tbl : DegTable) (d : List (String × ℚ)) (node : String) :
    (match lastLookup node tbl with
     | none => d
     | some none => d
     | some (some v) => dictSet d node v) =
      match fcStep tbl node with
      | some v => dictSet d node v
      | none => d := by
  unfold fcStep
  rcases h : lastLookup node tbl with _ | fcOpt
  · rfl
  · rcases fcOpt with _ | v <;> rfl

theorem alookup_fold_fc (tbl : DegTable) (n : String) :
    ∀ (nodes : List String) (d : List (String × ℚ)),
      alookup n (nodes.foldl (fun d node =>
        match lastLookup node tbl with
        | none => d
        | some none => d
        | some (some v) => dictSet d node v) d) =
      if n ∈ nodes then
        match fcStep tbl n with
        | some v => some v
        | none => alookup n d
      else alookup n d := by
  intro nodes
  induction nodes with
  | nil => intro d; simp
  | cons m ms ih =>
    intro d
    simp only [List.foldl_cons]
    rw [ih, fcFoldStep_eq tbl d m]
    by_cases hnm : n = m
    · subst hnm
      rcases hs : fcStep tbl n with _ | v
      · by_cases hms : n ∈ ms
        · simp [hms, hs]
        · simp [hms, hs]
      · by_cases hms : n ∈ ms
        · simp [hms, hs, alookup_dictSet]
        · simp [hms, hs, alookup_dictSet]
    · by_cases hms : n ∈ ms
      · rcases hs : fcStep tbl n with _ | v
        · rcases hm : fcStep tbl m with _ | v2
          · simp [hms, hs, hm]
          · simp [hms, hs, hm, alookup_dictSet, hnm]
        · simp [hms, hs]
      · have hcons : ¬(n ∈ m :: ms) := by
          intro h; rcases List.mem_cons.mp h with h | h
          · exact hnm h
          · exact hms h
        rcases hs : fcStep tbl m with _ | v
        · simp [hms, hcons]
        · simp [hms, hcons, alookup_dictSet, hnm]

/-- C7. The fold-change map records, for each graph node, the value of its
last table occurrence when that value is non-NaN; membership in the map is
exactly "graph node whose (last-write-wins) table entry is non-missing";
and a NaN entry never yields category `up` or `down`. -/
theorem fold_change_map_spec (g : SGraph) (tbl : DegTable) (pl : List String)
    (n : String) :
    (alookup n (build_fold_changes g (some tbl)) =
      if n ∈ g.nodes then
        match lastLookup n tbl with
        | some (some v) => some v
        | _ => none
      else none)
    ∧ ((∃ v, alookup n (build_fold_changes g (some tbl)) = some v) ↔
        n ∈ g.nodes ∧ ∃ v, lastLookup n tbl = some (some v))
    ∧ build_fold_changes g none = []
    ∧ (lastLookup n tbl = some none →
        alookup n (categorize_genes pl (some tbl) g) ≠ some Category.up
        ∧ alookup n (categorize_genes pl (some tbl) g) ≠ some Category.down) := by
  have hmain : alookup n (build_fold_changes g (some tbl)) =
      if n ∈ g.nodes then
        match lastLookup n tbl with
        | some (some v) => some v
        | _ => none
      else none := by
    show alookup n (g.nodes.foldl _ []) = _
    rw [alookup_fold_fc]
    by_cases hg : n ∈ g.nodes
    · simp only [if_pos hg]
      unfold fcStep
      rcases h : lastLookup n tbl with _ | fcOpt
      · simp [alookup]
      · rcases fcOpt with _ | v
        · simp [alookup]
        · simp
    · simp [hg, alookup]
  refine ⟨hmain, ?_, rfl, ?_⟩
  · rw [hmain]
    by_cases hg : n ∈ g.nodes
    · simp only [if_pos hg]
      rcases h : lastLookup n tbl with _ | fcOpt
      · simp [hg]
      · rcases fcOpt with _ | v
        · simp [hg]
        · simp [hg]
    · simp [hg]
  · intro hnan
    rw [lookup_categorize_genes]
    by_cases hg : n ∈ g.nodes
    · simp only [if_pos hg]
      by_cases hpp : n ∈ pl
      · constructor <;> (unfold categoryOf; simp [hpp])
      · rw [categoryOf_of_lastLookup_nan pl tbl n hpp hnan]
        constructor <;> decide
    · simp [hg]

/-- Witness for C7: a gene whose first table row is numeric but whose
last row is NaN stays out of the map (last write wins) and is not
categorised `up` or `down`. -/
theorem fold_change_map_spec_witness :
    alookup "A" (build_fold_changes (SGraph.mk ["A", "B"] [("A", "B")])
        (some [("A", some 2), ("A", none), ("B", some 3)])) = none
    ∧ alookup "A" (categorize_genes [] (some [("A", some 2), ("A", none), ("B", some 3)])
        (SGraph.mk ["A", "B"] [("A", "B")])) ≠ some Category.up
    ∧ alookup "A" (categorize_genes [] (some [("A", some 2), ("A", none), ("B", some 3)])
        (SGraph.mk ["A", "B"] [("A", "B")])) ≠ some Category.down := by
  have h := fold_change_map_spec (SGraph.mk ["A", "B"] [("A", "B")])
    [("A", some 2), ("A", none), ("B", some 3)] [] "A"
  have h4 := h.2.2.2 (by decide)
  exact ⟨h.1.trans (by decide), h4.1, h4.2⟩

/-! ### Graph construction (C9) -/

theorem mem_nodes_addNode (g : SGraph) (x n : String) :
    n ∈ (addNode g x).nodes ↔ n ∈ g.nodes ∨ n = x := by
  unfold addNode
  by_cases h : x ∈ g.nodes
  · simp only [if_pos h]
    constructor
    · exact Or.inl
    · rintro (hn | rfl)
      · exact hn
      · exact h
  · simp [h]

theorem nodes_addEdge (g : SGraph) (u v : String) :
    (addEdge g u v).nodes = (addNode (addNode g u) v).nodes := by
  simp only [addEdge]
  split <;> rfl

theorem mem_nodes_addEdge (g : SGraph) (u v n : String) :
    n ∈ (addEdge g u v).nodes ↔ n ∈ g.nodes ∨ n = u ∨ n = v := by
  rw [nodes_addEdge, mem_nodes_addNode, mem_nodes_addNode, or_assoc]

theorem mem_nodes_foldl_addEdge (rows : List (String × String)) :
    ∀ (g : SGraph) (n : String),
      n ∈ (rows.foldl (fun g e => addEdge g e.1 e.2) g).nodes ↔
        n ∈ g.nodes ∨ ∃ e ∈ rows, n = e.1 ∨ n = e.2 := by
  induction rows with
  | nil => intro g n; simp
  | cons r rs ih =>
    intro g n
    simp only [List.foldl_cons]
    rw [ih]
    rw [mem_nodes_addEdge]
    constructor
    · rintro ((hg | h1 | h2) | ⟨e, he, hor⟩)
      · exact Or.inl hg
      · exact Or.inr ⟨r, List.mem_cons_self r rs, Or.inl h1⟩
      · exact Or.inr ⟨r, List.mem_cons_self r rs, Or.inr h2⟩
      · exact Or.inr ⟨e, List.mem_cons_of_mem r he, hor⟩
    · rintro (hg | ⟨e, he, hor⟩)
      · exact Or.inl (Or.inl hg)
      · rcases List.mem_cons.mp he with rfl | he'
        · rcases hor with h | h
          · exact Or.inl (Or.inr (Or.inl h))
          · exact Or.inl (Or.inr (Or.inr h))
        · exact Or.inr ⟨e, he', hor⟩

/-- C9. Round-trip of graph construction: a string is a node of the graph
built from an edge list exactly when it occurs as a source or target
endpoint of some row — independent of duplicate or reciprocal rows. -/
theorem graph_roundtrip_nodes (rows : List (String × String)) (n : String) :
    n ∈ (from_pandas_edgelist rows).nodes ↔ ∃ e ∈ rows, n = e.1 ∨ n = e.2 := by
  unfold from_pandas_edgelist
  rw [mem_nodes_foldl_addEdge]
  simp

/-- Witness for C9 on an edge list with a duplicate and a reciprocal row. -/
theorem graph_roundtrip_nodes_witness :
    "B" ∈ (from_pandas_edgelist [("A", "B"), ("A", "B"), ("B", "A")]).nodes ∧
      "C" ∉ (from_pandas_edgelist [("A", "B"), ("A", "B"), ("B", "A")]).nodes :=
  ⟨(graph_roundtrip_nodes [("A", "B"), ("A", "B"), ("B", "A")] "B").mpr
      ⟨("A", "B"), by decide, Or.inr (by decide)⟩,
    by decide⟩

/-! ### The diverging colour domain (C3) -/

/-- Python `min` over a non-empty list (junk value `0` on `[]`; every use
site guards non-emptiness, as the script does with `if perturbed_fc:`). -/
def listMin : List ℚ → ℚ
  | [] => 0
  | x :: xs => xs.foldl min x

/-- Python `max` over a non-empty list (junk value `0` on `[]`). -/
def listMax : List ℚ → ℚ
  | [] => 0
  | x :: xs => xs.foldl max x

/-- `vmin = min(min(fcs), -1)`, `vmax = max(max(fcs), 1)` — the colour
domain computed identically at both call sites of the script. -/
def color_domain (fcs : List ℚ) : ℚ × ℚ :=
  (min (listMin fcs) (-1), max (listMax fcs) 1)

theorem foldl_min_le_init : ∀ (xs : List ℚ) (a : ℚ), xs.foldl min a ≤ a := by
  intro xs
  induction xs with
  | nil => intro a; exact le_refl a
  | cons x xs ih =>
    intro a
    calc (x :: xs).foldl min a = xs.foldl min (min a x) := rfl
      _ ≤ min a x := ih (min a x)
      _ ≤ a := min_le_left a x

theorem foldl_min_le_mem : ∀ (xs : List ℚ) (a x : ℚ), x ∈ xs → xs.foldl min a ≤ x := by
  intro xs
  induction xs with
  | nil => intro a x h; simp at h
  | cons y ys ih =>
    intro a x h
    rcases List.mem_cons.mp h with rfl | h
    · calc (x :: ys).foldl min a = ys.foldl min (min a x) := rfl
        _ ≤ min a x := foldl_min_le_init ys (min a x)
        _ ≤ x := min_le_right a x
    · exact ih (min a y) x h

theorem foldl_min_mem : ∀ (xs : List ℚ) (a : ℚ),
    xs.foldl min a = a ∨ xs.foldl min a ∈ xs := by
  intro xs
  induction xs with
  | nil => intro a; exact Or.inl rfl
  | cons y ys ih =>
    intro a
    rcases ih (min a y) with h | h
    · rcases min_choice a y with hm | hm
      · exact Or.inl (by rw [List.foldl_cons, h, hm])
      · refine Or.inr ?_
        rw [List.foldl_cons, h, hm]
        exact List.mem_cons_self y ys
    · exact Or.inr (List.mem_cons_of_mem y h)

theorem foldl_max_init_le : ∀ (xs : List ℚ) (a : ℚ), a ≤ xs.foldl max a := by
  intro xs
  induction xs with
  | nil => intro a; exact le_refl a
  | cons x xs ih =>
    intro a
    calc a ≤ max a x := le_max_left a x
      _ ≤ xs.foldl max (max a x) := ih (max a x)
      _ = (x :: xs).foldl max a := rfl

theorem foldl_max_mem_le : ∀ (xs : List ℚ) (a x : ℚ), x ∈ xs → x ≤ xs.foldl max a := by
  intro xs
  induction xs with
  | nil => intro a x h; simp at h
  | cons y ys ih =>
    intro a x h
    rcases List.mem_cons.mp h with rfl | h
    · calc x ≤ max a x := le_max_right a x
        _ ≤ ys.foldl max (max a x) := foldl_max_init_le ys (max a x)
        _ = (x :: ys).foldl max a := rfl
    · exact ih (max a y) x h

theorem foldl_max_mem : ∀ (xs : List ℚ) (a : ℚ),
    xs.foldl max a = a ∨ xs.foldl max a ∈ xs := by
  intro xs
  induction xs with
  | nil => intro a; exact Or.inl rfl
  | cons y ys ih =>
    intro a
    rcases ih (max a y) with h | h
    · rcases max_choice a y with hm | hm
      · exact Or.inl (by rw [List.foldl_cons, h, hm])
      · refine Or.inr ?_
        rw [List.foldl_cons, h, hm]
        exact List.mem_cons_self y ys
    · exact Or.inr (List.mem_cons_of_mem y h)

theorem listMin_le (l : List ℚ) (x : ℚ) (h : x ∈ l) : listMin l ≤ x := by
  rcases l with _ | ⟨y, ys⟩
  · simp at h
  · rcases List.mem_cons.mp h with rfl | h
    · exact foldl_min_le_init ys x
    · exact foldl_min_le_mem ys y x h

theorem listMin_mem (l : List ℚ) (h : l ≠ []) : listMin l ∈ l := by
  rcases l with _ | ⟨y, ys⟩
  · exact absurd rfl h
  · rcases foldl_min_mem ys y with hm | hm
    · rw [listMin, hm]; exact List.mem_cons_self y ys
    · exact List.mem_cons_of_mem y hm

theorem le_listMax (l : List ℚ) (x : ℚ) (h : x ∈ l) : x ≤ listMax l := by
  rcases l with _ | ⟨y, ys⟩
  · simp at h
  · rcases List.mem_cons.mp h with rfl | h
    · exact foldl_max_init_le ys x
    · exact foldl_max_mem_le ys y x h

theorem listMax_mem (l : List ℚ) (h : l ≠ []) : listMax l ∈ l := by
  rcases l with _ | ⟨y, ys⟩
  · exact absurd rfl h
  · rcases foldl_max_mem ys y with hm | hm
    · rw [listMax, hm]; exact List.mem_cons_self y ys
    · exact List.mem_cons_of_mem y hm

/-- C3. The colour domain built from a non-empty list of observed fold
changes is `(min(observed minimum, -1), max(observed maximum, 1))`, where
`listMin`/`listMax` really are the observed extrema; consequently
`vmin ≤ -1` and `1 ≤ vmax`, so the domain always spans at least
`[-1, 1]`. -/
theorem color_domain_spec (fcs : List ℚ) (h : fcs ≠ []) :
    (color_domain fcs).1 = min (listMin fcs) (-1)
    ∧ (color_domain fcs).2 = max (listMax fcs) 1
    ∧ (color_domain fcs).1 ≤ -1
    ∧ 1 ≤ (color_domain fcs).2
    ∧ listMin fcs ∈ fcs ∧ (∀ x ∈ fcs, listMin fcs ≤ x)
    ∧ listMax fcs ∈ fcs ∧ (∀ x ∈ fcs, x ≤ listMax fcs) :=
  ⟨rfl, rfl, min_le_right _ _, le_max_right _ _,
    listMin_mem fcs h, fun x hx => listMin_le fcs x hx,
    listMax_mem fcs h, fun x hx => le_listMax fcs x hx⟩

/-- Witness for C3: with all observed values small and positive the
domain still spans `[-1, 1]`. -/
theorem color_domain_spec_witness :
    ([mkRat 1 2, mkRat 3 4] ≠ [] : Prop)
    ∧ (color_domain [mkRat 1 2, mkRat 3 4]).1 ≤ -1
    ∧ 1 ≤ (color_domain [mkRat 1 2, mkRat 3 4]).2 :=
  ⟨by decide,
    (color_domain_spec [mkRat 1 2, mkRat 3 4] (by decide)).2.2.1,
    (color_domain_spec [mkRat 1 2, mkRat 3 4] (by decide)).2.2.2.1⟩

/-! ### Node painting in `visualize_network` (C10) -/

/-- How one node is drawn: a fixed flat colour, or a value mapped through
the diverging colour scale with domain `[vmin, vmax]`. -/
inductive NodePaint where
  | flat (color : String)
  | scaled (fc : ℚ) (vmin : ℚ) (vmax : ℚ)
deriving DecidableEq, Repr

/-- `[node for node, cat in gene_categories.items() if cat == category]`. -/
def nodesOf (cats : List (String × Category)) (c : Category) : List String :=
  (cats.filter (fun p => p.2 == c)).map Prod.fst

/-- The perturbed nodes that have a fold-change entry (`valid_perturbed`). -/
def valid_perturbed (cats : List (String × Category)) (fcs : List (String × ℚ)) :
    List String :=
  (nodesOf cats Category.perturbed).filter (fun n => (alookup n fcs).isSome)

/-- Their fold changes, in the same order (`perturbed_fc`). -/
def perturbed_fc (cats : List (String × Category)) (fcs : List (String × ℚ)) :
    List ℚ :=
  (valid_perturbed cats fcs).filterMap (fun n => alookup n fcs)

/-- The node-drawing plan of `visualize_network`: `other` light-gray,
`down` blue, `up` red; perturbed nodes go through the diverging scale
when both the perturbed list and the fold-change map are non-empty and at
least one perturbed node has a fold change, else they are purple. -/
def draw_plan (cats : List (String × Category)) (fcs : List (String × ℚ)) :
    List (String × NodePaint) :=
  let others := (nodesOf cats Category.other).map (fun n => (n, NodePaint.flat "lightgray"))
  let downs := (nodesOf cats Category.down).map (fun n => (n, NodePaint.flat "blue"))
  let ups := (nodesOf cats Category.up).map (fun n => (n, NodePaint.flat "red"))
  let perts :=
    if nodesOf cats Category.perturbed ≠ [] ∧ fcs ≠ [] then
      if perturbed_fc cats fcs ≠ [] then
        (valid_perturbed cats fcs).map (fun n =>
          (n, NodePaint.scaled ((alookup n fcs).getD 0)
            (color_domain (perturbed_fc cats fcs)).1
            (color_domain (perturbed_fc cats fcs)).2))
      else (nodesOf cats Category.perturbed).map (fun n => (n, NodePaint.flat "purple"))
    else (nodesOf cats Category.perturbed).map (fun n => (n, NodePaint.flat "purple"))
  others ++ downs ++ ups ++ perts

theorem mem_nodesOf (cats : List (String × Category)) (c : Category) (n : String) :
    n ∈ nodesOf cats c ↔ (n, c) ∈ cats := by
  unfold nodesOf
  constructor
  · intro h
    rcases List.mem_map.mp h with ⟨p, hp, he⟩
    rcases List.mem_filter.mp hp with ⟨hpc, hc⟩
    have : p = (n, c) := by
      rcases p with ⟨a, b⟩
      simp only [beq_iff_eq] at hc
      simp only at he
      rw [Prod.mk.injEq]
      exact ⟨he, hc⟩
    exact this ▸ hpc
  · intro h
    apply List.mem_map.mpr
    exact ⟨(n, c), List.mem_filter.mpr ⟨h, by simp⟩, rfl⟩

theorem mem_perturbed_fc (cats : List (String × Category)) (fcs : List (String × ℚ))
    (x : ℚ) :
    x ∈ perturbed_fc cats fcs ↔
      ∃ n, (n, Category.perturbed) ∈ cats ∧ alookup n fcs = some x := by
  unfold perturbed_fc valid_perturbed
  constructor
  · intro h
    rcases List.mem_filterMap.mp h with ⟨n, hn, hx⟩
    rcases List.mem_filter.mp hn with ⟨hnp, _⟩
    exact ⟨n, (mem_nodesOf cats Category.perturbed n).mp hnp, hx⟩
  · rintro ⟨n, hc, hx⟩
    apply List.mem_filterMap.mpr
    refine ⟨n, List.mem_filter.mpr ⟨(mem_nodesOf cats Category.perturbed n).mpr hc, ?_⟩, hx⟩
    rw [hx]; rfl

/-- C10. The diverging scale is applied exactly to perturbed nodes that
have a fold-change entry; its domain extrema are computed from exactly
those nodes' fold changes; `up` nodes are painted flat red and `down`
nodes flat blue, whatever their fold-change magnitude. -/
theorem perturbed_color_scale_spec (cats : List (String × Category))
    (fcs : List (String × ℚ)) :
    (∀ n fc vmin vmax, (n, NodePaint.scaled fc vmin vmax) ∈ draw_plan cats fcs →
        (n, Category.perturbed) ∈ cats ∧ alookup n fcs = some fc
        ∧ vmin = min (listMin (perturbed_fc cats fcs)) (-1)
        ∧ vmax = max (listMax (perturbed_fc cats fcs)) 1)
    ∧ (∀ x, x ∈ perturbed_fc cats fcs ↔
        ∃ n, (n, Category.perturbed) ∈ cats ∧ alookup n fcs = some x)
    ∧ (∀ n, (n, Category.up) ∈ cats → (n, NodePaint.flat "red") ∈ draw_plan cats fcs)
    ∧ (∀ n, (n, Category.down) ∈ cats → (n, NodePaint.flat "blue") ∈ draw_plan cats fcs) := by
  refine ⟨?_, mem_perturbed_fc cats fcs, ?_, ?_⟩
  · intro n fc vmin vmax hmem
    unfold draw_plan at hmem
    simp only [List.mem_append] at hmem
    rcases hmem with ((h | h) | h) | h
    · rcases List.mem_map.mp h with ⟨m, _, he⟩
      exact absurd (congrArg Prod.snd he) (by simp)
    · rcases List.mem_map.mp h with ⟨m, _, he⟩
      exact absurd (congrArg Prod.snd he) (by simp)
    · rcases List.mem_map.mp h with ⟨m, _, he⟩
      exact absurd (congrArg Prod.snd he) (by simp)
    · rcases hif : (decide (nodesOf cats Category.perturbed ≠ [] ∧ fcs ≠ [])) with _ | _
      · rw [if_neg (of_decide_eq_false hif)] at h
        rcases List.mem_map.mp h with ⟨m, _, he⟩
        exact absurd (congrArg Prod.snd he) (by simp)
      · rw [if_pos (of_decide_eq_true hif)] at h
        by_cases hpf : perturbed_fc cats fcs ≠ []
        · rw [if_pos hpf] at h
          rcases List.mem_map.mp h with ⟨m, hm, he⟩
          rcases List.mem_filter.mp hm with ⟨hmp, hms⟩
          have hn : m = n := congrArg Prod.fst he
          subst hn
          rcases Option.isSome_iff_exists.mp hms with ⟨v, hv⟩
          have hsnd := congrArg Prod.snd he
          simp only [NodePaint.scaled.injEq] at hsnd
          rcases hsnd with ⟨hfc, hvmin, hvmax⟩
          refine ⟨(mem_nodesOf cats Category.perturbed m).mp hmp, ?_, hvmin.symm, hvmax.symm⟩
          rw [hv] at hfc ⊢
          simp only [Option.getD_some] at hfc
          rw [hfc]
        · rw [if_neg hpf] at h
          rcases List.mem_map.mp h with ⟨m, _, he⟩
          exact absurd (congrArg Prod.snd he) (by simp)
  · intro n hup
    unfold draw_plan
    simp only [List.mem_append]
    refine Or.inl (Or.inr ?_)
    exact List.mem_map.mpr ⟨n, (mem_nodesOf cats Category.up n).mpr hup, rfl⟩
  · intro n hdown
    unfold draw_plan
    simp only [List.mem_append]
    refine Or.inl (Or.inl (Or.inr ?_))
    exact List.mem_map.mpr ⟨n, (mem_nodesOf cats Category.down n).mpr hdown, rfl⟩

/-- Witness for C10: an `up` node is flat red and a `down` node flat blue
even though the `down` node has a large positive-magnitude fold change. -/
theorem perturbed_color_scale_spec_witness :
    ("B", NodePaint.flat "red") ∈
      draw_plan [("A", Category.perturbed), ("B", Category.up), ("C", Category.down)]
        [("A", 3), ("C", -9)]
    ∧ ("C", NodePaint.flat "blue") ∈
      draw_plan [("A", Category.perturbed), ("B", Category.up), ("C", Category.down)]
        [("A", 3), ("C", -9)] :=
  ⟨(perturbed_color_scale_spec
      [("A", Category.perturbed), ("B", Category.up), ("C", Category.down)]
      [("A", 3), ("C", -9)]).2.2.1 "B" (by decide),
    (perturbed_color_scale_spec
      [("A", Category.perturbed), ("B", Category.up), ("C", Category.down)]
      [("A", 3), ("C", -9)]).2.2.2 "C" (by decide)⟩

/-! ### Layout dispatch and fallback (C8) -/

/-- The layout algorithm chosen by `--layout`. -/
inductive LayoutChoice where
  | spring
  | kamada_kawai
  | circular
  | spectral
deriving DecidableEq, Repr

/-- The `networkx` layout library, abstract: `spring_layout` takes the
`k`, `iterations` and `seed` arguments the script passes; Kamada-Kawai
and spectral layouts may fail (`none`), which models the exception the
script catches. Positions are dicts from node to 2-D coordinate. -/
structure LayoutLib where
  spring_layout : SGraph → ℚ → ℕ → ℕ → List (String × (ℚ × ℚ))
  kamada_kawai_layout : SGraph → Option (List (String × (ℚ × ℚ)))
  circular_layout : SGraph → List (String × (ℚ × ℚ))
  spectral_layout : SGraph → Option (List (String × (ℚ × ℚ)))

/-- The layout dispatch of `visualize_network`: spring is
`nx.spring_layout(G, k=0.3, iterations=50, seed=42)`; a failing
Kamada-Kawai or spectral computation falls back to the identical spring
call. -/
def compute_layout (lib : LayoutLib) (g : SGraph) : LayoutChoice → List (String × (ℚ × ℚ))
  | LayoutChoice.spring => lib.spring_layout g (3/10) 50 42
  | LayoutChoice.kamada_kawai =>
    match lib.kamada_kawai_layout g with
    | some pos => pos
    | none => lib.spring_layout g (3/10) 50 42
  | LayoutChoice.circular => lib.circular_layout g
  | LayoutChoice.spectral =>
    match lib.spectral_layout g with
    | some pos => pos
    | none => lib.spring_layout g (3/10) 50 42

/-- C8. Layout fallback: when Kamada-Kawai (or spectral) fails, the
result is exactly the spring layout with the same `k = 0.3`,
`iterations = 50`, `seed = 42` as the default spring branch; and whenever
the spring layout assigns every graph node exactly one coordinate, so
does the fallback result. -/
theorem layout_fallback_spec (lib : LayoutLib) (g : SGraph)
    (hk : lib.kamada_kawai_layout g = none)
    (hs : lib.spectral_layout g = none)
    (hcover : ∀ n ∈ g.nodes,
      ∃ p, alookup n (lib.spring_layout g (3/10) 50 42) = some p) :
    compute_layout lib g LayoutChoice.kamada_kawai =
        compute_layout lib g LayoutChoice.spring
    ∧ compute_layout lib g LayoutChoice.spectral =
        compute_layout lib g LayoutChoice.spring
    ∧ (∀ n ∈ g.nodes,
        ∃ p, alookup n (compute_layout lib g LayoutChoice.kamada_kawai) = some p
          ∧ alookup n (compute_layout lib g LayoutChoice.spectral) = some p) := by
  have h1 : compute_layout lib g LayoutChoice.kamada_kawai =
      compute_layout lib g LayoutChoice.spring := by
    unfold compute_layout
    rw [hk]
  have h2 : compute_layout lib g LayoutChoice.spectral =
      compute_layout lib g LayoutChoice.spring := by
    unfold compute_layout
    rw [hs]
  refine ⟨h1, h2, ?_⟩
  intro n hn
  rcases hcover n hn with ⟨p, hp⟩
  refine ⟨p, ?_, ?_⟩
  · rw [h1]; exact hp
  · rw [h2]; exact hp

/-- Witness for C8 with a concrete two-node graph and a library whose
Kamada-Kawai and spectral layouts fail. -/
theorem layout_fallback_spec_witness :
    compute_layout
        (LayoutLib.mk (fun g _ _ _ => g.nodes.map (fun n => (n, (0, 0))))
          (fun _ => none) (fun g => g.nodes.map (fun n => (n, (1, 1))))
          (fun _ => none))
        (SGraph.mk ["A", "B"] [("A", "B")]) LayoutChoice.kamada_kawai =
      compute_layout
        (LayoutLib.mk (fun g _ _ _ => g.nodes.map (fun n => (n, (0, 0))))
          (fun _ => none) (fun g => g.nodes.map (fun n => (n, (1, 1))))
          (fun _ => none))
        (SGraph.mk ["A", "B"] [("A", "B")]) LayoutChoice.spring
    ∧ (∀ n ∈ (SGraph.mk ["A", "B"] [("A", "B")]).nodes,
        ∃ p, alookup n (compute_layout
          (LayoutLib.mk (fun g _ _ _ => g.nodes.map (fun n => (n, (0, 0))))
            (fun _ => none) (fun g => g.nodes.map (fun n => (n, (1, 1))))
            (fun _ => none))
          (SGraph.mk ["A", "B"] [("A", "B")]) LayoutChoice.kamada_kawai) = some p
          ∧ alookup n (compute_layout
          (LayoutLib.mk (fun g _ _ _ => g.nodes.map (fun n => (n, (0, 0))))
            (fun _ => none) (fun g => g.nodes.map (fun n => (n, (1, 1))))
            (fun _ => none))
          (SGraph.mk ["A", "B"] [("A", "B")]) LayoutChoice.spectral) = some p) := by
  have h := layout_fallback_spec
    (LayoutLib.mk (fun g _ _ _ => g.nodes.map (fun n => (n, (0, 0))))
      (fun _ => none) (fun g => g.nodes.map (fun n => (n, (1, 1))))
      (fun _ => none))
    (SGraph.mk ["A", "B"] [("A", "B")]) rfl rfl
    (by intro n hn; fin_cases hn <;> exact ⟨(0, 0), by decide⟩)
  exact ⟨h.1, h.2.2⟩

/-! ### The rank table of `create_gene_table` (C6) -/

/-- One row of the important-genes table. The betweenness column of the
script is a `networkx` library output consumed opaquely; both centrality
columns are therefore abstract inputs `dc`/`bc` below, as the script
takes them from `nx.degree_centrality` / `nx.betweenness_centrality`. -/
structure RankRow where
  gene : String
  category : Category
  degree : ℕ
  centrality : ℚ
  betweenness : ℚ
  log2FC : Option ℚ
deriving DecidableEq, Repr

/-- `G.degree(gene)`: incident edge count, self-loops counted twice. -/
def degreeOf (g : SGraph) (n : String) : ℕ :=
  (g.edges.filter (fun e => e.1 == n || e.2 == n)).length
  + (g.edges.filter (fun e => e.1 == n && e.2 == n)).length

/-- Descending comparison on optional values, missing (`'NA'`/NaN) last:
the effect of `pd.to_numeric(..., errors='coerce')` followed by
`sort_values(..., ascending=False)` with `na_position='last'`. -/
def fcOrd : Option ℚ → Option ℚ → Prop
  | some x, some y => y ≤ x
  | some _, none => True
  | none, some _ => False
  | none, none => True

instance (x y : Option ℚ) : Decidable (fcOrd x y) :=
  match x, y with
  | some x, some y => inferInstanceAs (Decidable (y ≤ x))
  | some _, none => inferInstanceAs (Decidable True)
  | none, some _ => inferInstanceAs (Decidable False)
  | none, none => inferInstanceAs (Decidable True)

theorem fcOrd_total (x y : Option ℚ) : fcOrd x y ∨ fcOrd y x := by
  rcases x with _ | x <;> rcases y with _ | y
  · simp [fcOrd]
  · simp [fcOrd]
  · simp [fcOrd]
  · simp only [fcOrd]
    exact le_total y x

theorem fcOrd_trans (x y z : Option ℚ) : fcOrd x y → fcOrd y z → fcOrd x z := by
  rcases x with _ | x <;> rcases y with _ | y <;> rcases z with _ | z <;>
    simp [fcOrd] <;> intro h1 h2 <;> exact h2.trans h1

/-- Ascending lexical order of the four category names: `"down"` <
`"other"` < `"perturbed"` < `"up"` (proved against the real character
order in `catRank_lt_iff_name_lt`). -/
def catRank : Category → ℕ
  | Category.down => 0
  | Category.other => 1
  | Category.perturbed => 2
  | Category.up => 3

/-- `catRank` orders categories exactly as the lexicographic order of
their names, the key pandas sorts on. -/
theorem catRank_lt_iff_name_lt (a b : Category) :
    catRank a < catRank b ↔ (catStr a).data < (catStr b).data := by
  cases a <;> cases b <;> decide

/-- Category-major ordering: ascending lexical category name, ties broken
by a secondary relation. -/
def catThen (s : RankRow → RankRow → Prop) (a b : RankRow) : Prop :=
  catRank a.category < catRank b.category
  ∨ (catRank a.category = catRank b.category ∧ s a b)

theorem catThen_total (s : RankRow → RankRow → Prop)
    (hs : ∀ a b, s a b ∨ s b a) (a b : RankRow) :
    catThen s a b ∨ catThen s b a := by
  rcases lt_trichotomy (catRank a.category) (catRank b.category) with h | h | h
  · exact Or.inl (Or.inl h)
  · rcases hs a b with hab | hba
    · exact Or.inl (Or.inr ⟨h, hab⟩)
    · exact Or.inr (Or.inr ⟨h.symm, hba⟩)
  · exact Or.inr (Or.inl h)

theorem catThen_trans (s : RankRow → RankRow → Prop)
    (hs : ∀ a b c, s a b → s b c → s a c) (a b c : RankRow)
    (h1 : catThen s a b) (h2 : catThen s b c) : catThen s a c := by
  rcases h1 with h1 | ⟨he1, hs1⟩
  · rcases h2 with h2 | ⟨he2, _⟩
    · exact Or.inl (h1.trans h2)
    · exact Or.inl (by rw [← he2]; exact h1)
  · rcases h2 with h2 | ⟨he2, hs2⟩
    · exact Or.inl (by rw [he1]; exact h2)
    · exact Or.inr ⟨he1.trans he2, hs a b c hs1 hs2⟩

/-- `sort_values(['Category', 'log2FC_num'], ascending=[True, False])`. -/
def rowLE_fc : RankRow → RankRow → Prop :=
  catThen (fun a b => fcOrd a.log2FC b.log2FC)

/-- `sort_values(['Category', 'Centrality'], ascending=[True, False])`. -/
def rowLE_cent : RankRow → RankRow → Prop :=
  catThen (fun a b => b.centrality ≤ a.centrality)

instance : DecidableRel rowLE_fc := fun a b =>
  inferInstanceAs (Decidable (catRank a.category < catRank b.category
    ∨ (catRank a.category = catRank b.category ∧ fcOrd a.log2FC b.log2FC)))

instance : DecidableRel rowLE_cent := fun a b =>
  inferInstanceAs (Decidable (catRank a.category < catRank b.category
    ∨ (catRank a.category = catRank b.category ∧ b.centrality ≤ a.centrality)))

instance : IsTotal RankRow rowLE_fc :=
  ⟨catThen_total _ (fun a b => fcOrd_total a.log2FC b.log2FC)⟩

instance : IsTrans RankRow rowLE_fc :=
  ⟨fun a b c =>
    catThen_trans _ (fun a b c => fcOrd_trans a.log2FC b.log2FC c.log2FC) a b c⟩

instance : IsTotal RankRow rowLE_cent :=
  ⟨catThen_total _ (fun a b => le_total b.centrality a.centrality)⟩

instance : IsTrans RankRow rowLE_cent :=
  ⟨fun a b c => catThen_trans _ (fun _ _ _ h1 h2 => h2.trans h1) a b c⟩

/-- `create_gene_table(G, gene_categories, fold_changes, ...)`: one row
per node of category `perturbed`/`up`/`down`; sorted by category and
fold change (descending) when some row has a numeric fold change, else by
category and centrality (descending). Pandas' quicksort is modelled as a
stable sort. `dc`/`bc` are the centrality dicts the script obtains from
`networkx`. -/
def create_gene_table (g : SGraph) (cats : List (String × Category))
    (fcs : List (String × ℚ)) (dc bc : String → ℚ) : List RankRow :=
  let important := cats.filter (fun p =>
    p.2 == Category.perturbed || p.2 == Category.up || p.2 == Category.down)
  let rows := important.map (fun p =>
    RankRow.mk p.1 p.2 (degreeOf g p.1) (dc p.1) (bc p.1) (alookup p.1 fcs))
  if rows.any (fun r => r.log2FC.isSome) then
    List.insertionSort rowLE_fc rows
  else
    List.insertionSort rowLE_cent rows

/-- C6. The table holds exactly one row per category-dict entry whose
category is not `other` (same multiset of genes); every row carries that
node's category, fold change, centrality and degree; and the result is
sorted by ascending category name with fold change descending (missing
last) when some row has a numeric fold change, else with centrality
descending. -/
theorem gene_table_spec (g : SGraph) (cats : List (String × Category))
    (fcs : List (String × ℚ)) (dc bc : String → ℚ) :
    ((create_gene_table g cats fcs dc bc).map RankRow.gene).Perm
        ((cats.filter (fun p => decide (p.2 ≠ Category.other))).map Prod.fst)
    ∧ (∀ r ∈ create_gene_table g cats fcs dc bc,
        r.category ≠ Category.other ∧ (r.gene, r.category) ∈ cats
        ∧ r.log2FC = alookup r.gene fcs ∧ r.centrality = dc r.gene
        ∧ r.degree = degreeOf g r.gene)
    ∧ ((∃ r ∈ create_gene_table g cats fcs dc bc, r.log2FC.isSome) →
        List.Sorted rowLE_fc (create_gene_table g cats fcs dc bc))
    ∧ ((∀ r ∈ create_gene_table g cats fcs dc bc, r.log2FC = none) →
        List.Sorted rowLE_cent (create_gene_table g cats fcs dc bc)) := by
  have hfilter : cats.filter (fun p =>
      p.2 == Category.perturbed || p.2 == Category.up || p.2 == Category.down)
      = cats.filter (fun p => decide (p.2 ≠ Category.other)) := by
    apply List.filter_congr
    intro p _
    rcases p with ⟨n, c⟩
    cases c <;> rfl
  set important := cats.filter (fun p =>
    p.2 == Category.perturbed || p.2 == Category.up || p.2 == Category.down) with himp
  set rows := important.map (fun p =>
    RankRow.mk p.1 p.2 (degreeOf g p.1) (dc p.1) (bc p.1) (alookup p.1 fcs)) with hrows
  have htable : create_gene_table g cats fcs dc bc =
      if rows.any (fun r => r.log2FC.isSome) then List.insertionSort rowLE_fc rows
      else List.insertionSort rowLE_cent rows := rfl
  have hperm : (create_gene_table g cats fcs dc bc).Perm rows := by
    rw [htable]
    split
    · exact List.perm_insertionSort rowLE_fc rows
    · exact List.perm_insertionSort rowLE_cent rows
  refine ⟨?_, ?_, ?_, ?_⟩
  · have h1 : ((create_gene_table g cats fcs dc bc).map RankRow.gene).Perm
        (rows.map RankRow.gene) := hperm.map RankRow.gene
    have h2 : rows.map RankRow.gene = important.map Prod.fst := by
      rw [hrows, List.map_map]
      rfl
    have h3 : important.map Prod.fst =
        (cats.filter (fun p => decide (p.2 ≠ Category.other))).map Prod.fst :=
      congrArg (List.map Prod.fst) hfilter
    rw [h2, h3] at h1
    exact h1
  · intro r hr
    have hr' : r ∈ rows := hperm.mem_iff.mp hr
    rw [hrows] at hr'
    rcases List.mem_map.mp hr' with ⟨p, hp, he⟩
    rw [himp] at hp
    rcases List.mem_filter.mp hp with ⟨hpc, hpred⟩
    have hcat : r.category = p.2 := by rw [← he]
    have hno : p.2 ≠ Category.other := by
      rcases p with ⟨m, c⟩
      cases c <;> simp_all
    refine ⟨by rw [hcat]; exact hno, ?_, by rw [← he], by rw [← he], by rw [← he]⟩
    have hg : r.gene = p.1 := by rw [← he]
    rw [hg, hcat]
    simpa using hpc
  · rintro ⟨r, hr, hsome⟩
    have hany : rows.any (fun r => r.log2FC.isSome) = true :=
      List.any_eq_true.mpr ⟨r, hperm.mem_iff.mp hr, hsome⟩
    rw [htable, if_pos hany]
    exact List.sorted_insertionSort rowLE_fc rows
  · intro hall
    have hany : ¬(rows.any (fun r => r.log2FC.isSome) = true) := by
      intro hc
      rcases List.any_eq_true.mp hc with ⟨r, hrr, hsome⟩
      have : r.log2FC = none := hall r (hperm.mem_iff.mpr hrr)
      rw [this] at hsome
      exact absurd hsome (by simp)
    rw [htable, if_neg hany]
    exact List.sorted_insertionSort rowLE_cent rows

/-- Witness for C6: a concrete three-node graph whose table has the rows
for the perturbed and up genes, fold-change sorted. -/
theorem gene_table_spec_witness :
    ((create_gene_table (SGraph.mk ["A", "B", "C"] [("A", "B"), ("B", "C")])
        [("A", Category.perturbed), ("B", Category.up), ("C", Category.other)]
        [("B", 2)] (fun _ => 0) (fun _ => 0)).map RankRow.gene).Perm ["A", "B"]
    ∧ List.Sorted rowLE_fc
        (create_gene_table (SGraph.mk ["A", "B", "C"] [("A", "B"), ("B", "C")])
          [("A", Category.perturbed), ("B", Category.up), ("C", Category.other)]
          [("B", 2)] (fun _ => 0) (fun _ => 0)) := by
  have h := gene_table_spec (SGraph.mk ["A", "B", "C"] [("A", "B"), ("B", "C")])
    [("A", Category.perturbed), ("B", Category.up), ("C", Category.other)]
    [("B", 2)] (fun _ => 0) (fun _ => 0)
  constructor
  · have he : (([("A", Category.perturbed), ("B", Category.up),
        ("C", Category.other)].filter
          (fun p => decide (p.2 ≠ Category.other))).map Prod.fst) = ["A", "B"] := by
      decide
    exact he ▸ h.1
  · exact h.2.2.1
      ⟨RankRow.mk "B" Category.up 2 0 0 (some 2), by decide, by decide⟩

/-! ### Label-subset selection in `visualize_network` (C1) -/

/-- `degs_df['abs_log2FC'] = degs_df['log2FC'].abs()` followed by
`sort_values('abs_log2FC', ascending=False)` (NaN last, ties modelled as
stable = table order), restriction to graph members, `head(10)`, and the
`gene` column. -/
def ratAbs (q : ℚ) : ℚ := if q < 0 then -q else q

def absDescRow (a b : String × Option ℚ) : Prop :=
  fcOrd (a.2.map ratAbs) (b.2.map ratAbs)

instance : DecidableRel absDescRow := fun a b =>
  inferInstanceAs (Decidable (fcOrd (a.2.map ratAbs) (b.2.map ratAbs)))

instance : IsTotal (String × Option ℚ) absDescRow :=
  ⟨fun a b => fcOrd_total (a.2.map ratAbs) (b.2.map ratAbs)⟩

instance : IsTrans (String × Option ℚ) absDescRow :=
  ⟨fun a b c => fcOrd_trans (a.2.map ratAbs) (b.2.map ratAbs) (c.2.map ratAbs)⟩

/-- The `top_fc_genes` computation of `visualize_network`. -/
def top_fc_genes (g : SGraph) (tbl : DegTable) : List String :=
  (((List.insertionSort absDescRow tbl).filter
      (fun r => decide (r.1 ∈ g.nodes))).take 10).map Prod.fst

/-- `important_nodes = node_categories['perturbed'] + node_categories['up']
+ node_categories['down']`. -/
def importantNodes (cats : List (String × Category)) : List String :=
  nodesOf cats Category.perturbed ++ nodesOf cats Category.up ++ nodesOf cats Category.down

/-- The label-subset selection of `visualize_network`: label everything on
a graph of at most 50 nodes; otherwise label the important nodes plus any
of the top-10 absolute-fold-change graph members not yet included. -/
def nodes_to_label (g : SGraph) (cats : List (String × Category))
    (degs_df : Option DegTable) : List String :=
  if g.nodes.length ≤ 50 then g.nodes
  else
    let important := importantNodes cats
    match degs_df with
    | none => important
    | some tbl =>
      (top_fc_genes g tbl).foldl
        (fun acc gene => if gene ∈ acc then acc else acc ++ [gene]) important

/-- Modelled from the spec sentence, for comparison with the code: "the
top 10 nodes by absolute fold-change among graph members *not already
selected* (ties broken by table order)" — i.e. the restriction to
unselected nodes happens before `head(10)`. -/
def spec_nodes_to_label (g : SGraph) (cats : List (String × Category))
    (degs_df : Option DegTable) : List String :=
  if g.nodes.length ≤ 50 then g.nodes
  else
    let important := importantNodes cats
    match degs_df with
    | none => important
    | some tbl =>
      important ++
        ((((List.insertionSort absDescRow tbl).filter
            (fun r => decide (r.1 ∈ g.nodes ∧ r.1 ∉ important))).take 10).map Prod.fst)

/-- A 51-node graph: nodes `"0"`, …, `"50"`, no edges needed. -/
def g51 : SGraph :=
  SGraph.mk ((List.range 51).map (fun i => toString i)) []

/-- A DEG table giving genes `"0"`…`"9"` the distinct fold changes
20, …, 11 (all upregulated) and gene `"10"` the fold change 1/2. -/
def tbl51 : DegTable :=
  (List.range 10).map (fun i => (toString i, some (mkRat (20 - Int.ofNat i) 1)))
    ++ [("10", some (mkRat 1 2))]

/-- The resulting categories: `"0"`…`"9"` are `up`, everything else `other`. -/
def cats51 : List (String × Category) :=
  categorize_genes [] (some tbl51) g51

set_option maxRecDepth 40000 in
/-- Counterexample to C1 as stated: gene `"10"` is the top
absolute-fold-change graph member among those not already selected, so
the claim says it is labeled; the code takes the top 10 *before*
excluding already-selected nodes — those ten slots are filled by the
`up` genes `"0"`…`"9"` — and never labels `"10"`. -/
theorem label_selection_counterexample :
    "10" ∈ spec_nodes_to_label g51 cats51 (some tbl51)
    ∧ "10" ∉ nodes_to_label g51 cats51 (some tbl51) := by
  decide

theorem mem_foldl_append_absent (l : List String) :
    ∀ (acc : List String) (n : String),
      n ∈ l.foldl (fun acc gene => if gene ∈ acc then acc else acc ++ [gene]) acc ↔
        n ∈ acc ∨ n ∈ l := by
  induction l with
  | nil => intro acc n; simp
  | cons x xs ih =>
    intro acc n
    simp only [List.foldl_cons]
    rw [ih]
    by_cases hx : x ∈ acc
    · simp only [if_pos hx]
      constructor
      · rintro (h | h)
        · exact Or.inl h
        · exact Or.inr (List.mem_cons_of_mem x h)
      · rintro (h | h)
        · exact Or.inl h
        · rcases List.mem_cons.mp h with rfl | h
          · exact Or.inl hx
          · exact Or.inr h
    · simp only [if_neg hx, List.mem_append, List.mem_singleton]
      constructor
      · rintro ((h | h) | h)
        · exact Or.inl h
        · exact Or.inr (h ▸ List.mem_cons_self x xs)
        · exact Or.inr (List.mem_cons_of_mem x h)
      · rintro (h | h)
        · exact Or.inl (Or.inl h)
        · rcases List.mem_cons.mp h with rfl | h
          · exact Or.inl (Or.inr rfl)
          · exact Or.inr h

/-- C1 (amended). A graph of at most 50 nodes has every node labeled.
On a larger graph the labeled set is the union of the important
(perturbed/up/down) nodes and — when a DEG table is available — those of
the top 10 absolute-fold-change graph members (ties broken by table
order) that are not already selected; with no table, exactly the
important nodes. -/
theorem label_selection_spec (g : SGraph) (cats : List (String × Category))
    (tbl : DegTable) :
    (g.nodes.length ≤ 50 →
      nodes_to_label g cats (some tbl) = g.nodes
      ∧ nodes_to_label g cats none = g.nodes)
    ∧ (50 < g.nodes.length →
      (∀ n, n ∈ nodes_to_label g cats (some tbl) ↔
        n ∈ importantNodes cats ∨ n ∈ top_fc_genes g tbl)
      ∧ nodes_to_label g cats none = importantNodes cats) := by
  constructor
  · intro h
    constructor <;> (unfold nodes_to_label; rw [if_pos h])
  · intro h
    have h' : ¬(g.nodes.length ≤ 50) := by omega
    constructor
    · intro n
      unfold nodes_to_label
      rw [if_neg h']
      exact mem_foldl_append_absent (top_fc_genes g tbl) (importantNodes cats) n
    · unfold nodes_to_label
      rw [if_neg h']

set_option maxRecDepth 40000 in
/-- Witness for C1 (amended): a two-node graph labels everything; in the
51-node counterexample graph the `up` gene `"0"` is labeled. -/
theorem label_selection_spec_witness :
    nodes_to_label (SGraph.mk ["A", "B"] [("A", "B")])
        [("A", Category.up), ("B", Category.other)] (some [("A", some 2)])
      = (SGraph.mk ["A", "B"] [("A", "B")]).nodes
    ∧ "0" ∈ nodes_to_label g51 cats51 (some tbl51) := by
  constructor
  · exact ((label_selection_spec (SGraph.mk ["A", "B"] [("A", "B")])
      [("A", Category.up), ("B", Category.other)] [("A", some 2)]).1 (by decide)).1
  · exact (((label_selection_spec g51 cats51 tbl51).2 (by decide)).1 "0").mpr
      (Or.inl (by decide))
